import Mathlib

/-!
Shallow embedding of `obsidiantools/_io.py` (POSIX path semantics).

A Python `pathlib.PurePosixPath` is modelled as a flag saying whether the
path is absolute together with its list of parts (the '.' components and
empty components are dropped at parsing time, as `pathlib` does; '..'
components are kept).  The filesystem seen by `rglob`/`glob` is modelled as
a list of entries relative to the root directory, each entry carrying its
parts and whether it is a regular file.
-/

/-- A Python `PurePosixPath`: `absolute` is whether the path has a root
(`/`), `parts` are the path components after parsing (no `''`, no `'.'`;
`'..'` is kept, as in `pathlib`). -/
structure PyPath where
  absolute : Bool
  parts : List String
deriving DecidableEq, Repr

/-- Split a character list at every `'/'` (what `s.split('/')` does on the
characters of `s`). -/
def splitSlash : List Char → List (List Char)
  | [] => [[]]
  | c :: rest =>
    let r := splitSlash rest
    if c = '/' then [] :: r
    else (c :: r.headD []) :: r.tail

/-- `Path(s)` for a POSIX string: split on `/`, drop empty and `'.'`
components, record whether the string starts with `/`. -/
def pathFromString (s : String) : PyPath :=
  { absolute := s.toList.head? == some '/',
    parts := ((splitSlash s.toList).map (fun cs => String.mk cs)).filter
      (fun c => c != "" && c != ".") }

/-- The relative path `Path('.')` (the root, as all paths here are
root-relative). -/
def rootPath : PyPath := { absolute := false, parts := [] }

/-- `Path.name`: the final component, `""` when there is none. -/
def PyPath.name (p : PyPath) : String := p.parts.getLast?.getD ""

/-- Index of the last `'.'` in a character list, if any. -/
def lastDot (cs : List Char) : Option Nat :=
  ((List.range cs.length).filter (fun i => cs.get? i == some '.')).getLast?

/-- `PurePath.suffix` of a file name `n`: with `i` the index of the last
dot, the substring from `i` when `0 < i < len n - 1`, else `""`. -/
def pySuffix (n : String) : String :=
  let cs := n.toList
  match lastDot cs with
  | some i => if 0 < i ∧ i + 1 < cs.length then String.mk (cs.drop i) else ""
  | none => ""

/-- The name with its `pySuffix` removed (what `with_suffix("")` puts in
place of the old name). -/
def pyStem (n : String) : String :=
  let cs := n.toList
  match lastDot cs with
  | some i => if 0 < i ∧ i + 1 < cs.length then String.mk (cs.take i) else n
  | none => n

/-- `Path.with_suffix("")`: a `ValueError` when the path has an empty name
(`Path('.')`, `Path('/')`), otherwise the last part is replaced by its
stem. -/
def PyPath.withSuffixEmpty (p : PyPath) : Except String PyPath :=
  if p.name = "" then .error "empty name"
  else .ok { absolute := p.absolute, parts := p.parts.dropLast ++ [pyStem p.name] }

/-- `Path.relative_to(Path('.'))`: a `ValueError` exactly when the path is
absolute; a relative path (even one with leading `'..'` parts) is returned
unchanged. -/
def PyPath.relativeToDot (p : PyPath) : Except String PyPath :=
  if p.absolute then .error "path is absolute" else .ok p

/-- `Path.parent`: drop the final part; `Path('.')` and `Path('/')` are
their own parent. -/
def PyPath.parent (p : PyPath) : PyPath :=
  if p.parts.isEmpty then p else { absolute := p.absolute, parts := p.parts.dropLast }

/-- `Path.is_relative_to(d)`: the absolute flags agree and `d`'s parts are
a prefix (equality included) of the path's parts. -/
def PyPath.isRelativeTo (p d : PyPath) : Bool :=
  p.absolute == d.absolute && d.parts.isPrefixOf p.parts

/-- `'/'.join` of the parts (what `String.intercalate "/"` computes). -/
def joinSlash : List String → String
  | [] => ""
  | [s] => s
  | s :: ss => s ++ "/" ++ joinSlash ss

/-- `str(path)` for a `PurePosixPath`. -/
def pathStr (p : PyPath) : String :=
  if p.parts.isEmpty then (if p.absolute then "/" else ".")
  else (if p.absolute then "/" else "") ++ joinSlash p.parts

/-- One filesystem entry under the root: its root-relative parts and
whether it is a regular file (directories have `isFile = false`). -/
structure FSEntry where
  parts : List String
  isFile : Bool
deriving DecidableEq, Repr

/-- The final component of an entry. -/
def entryName (e : FSEntry) : String := e.parts.getLast?.getD ""

/-- The root-relative `PyPath` of an entry (what `p.relative_to(dir_path)`
yields for a listed `p`). -/
def entryPath (e : FSEntry) : PyPath := { absolute := false, parts := e.parts }

/-- Glob matching of one pattern component against one name, as `fnmatch`
does for the patterns arising here: `*` matches any (possibly empty) run of
characters, `?` any single character, every other character itself.  The
only patterns ever built by the code are `"*." ++ extension`; character
classes (`[...]`) are not modelled, and every theorem below that needs the
literal reading of the extension assumes it contains no `*`, `?` or `[`. -/
def globMatch : List Char → List Char → Bool
  | [], cs => cs.isEmpty
  | p :: ps, cs =>
    if p = '*' then
      cs.tails.any (fun t => globMatch ps t)
    else
      match cs with
      | [] => false
      | c :: cs2 => (p == '?' || p == c) && globMatch ps cs2

/-- `get_relpaths_from_dir(dir_path, extension=extension)`: the relative
paths of the regular files under the root whose name matches the glob
pattern `*.{extension}`. -/
def get_relpaths_from_dir (fs : List FSEntry) (extension : String) : List PyPath :=
  (fs.filter (fun e =>
    globMatch ("*." ++ extension).toList (entryName e).toList && e.isFile)).map entryPath

/-- Normalisation of one `include_subdirs` entry:
`Path(s).with_suffix("").relative_to(".")`. -/
def normalizeSubdir (s : String) : Except String PyPath :=
  (pathFromString s).withSuffixEmpty.bind PyPath.relativeToDot

/-- The `allowed_dirs` list comprehension: normalise every entry from left
to right, raising at the first failure. -/
def normalizeSubdirs : List String → Except String (List PyPath)
  | [] => .ok []
  | s :: ss =>
    (normalizeSubdir s).bind (fun d => (normalizeSubdirs ss).map (fun ds => d :: ds))

/-- `_in_allowed_tree(path)`: the parent equals, or is `is_relative_to`,
one of the allowed directories. -/
def inAllowedTree (allowed : List PyPath) (p : PyPath) : Bool :=
  allowed.any (fun d => p.parent == d || p.parent.isRelativeTo d)

/-- The filtering stage of `get_relpaths_matching_subdirs`, applied to the
already-listed relative paths `all_rel` (lines 44-60 of `_io.py`).  A
`none` or empty `include_subdirs` keeps everything (or everything outside
the root when `include_root` is false); otherwise the allow-list is
normalised and a path is kept when its parent is the root (if
`include_root`) or lies in the allowed tree. -/
def filterPaths (all_rel : List PyPath) (include_subdirs : Option (List String))
    (include_root : Bool) : Except String (List PyPath) :=
  if (include_subdirs.getD []).isEmpty then
    .ok (if include_root then all_rel
         else all_rel.filter (fun p => p.parent != rootPath))
  else
    (normalizeSubdirs (include_subdirs.getD [])).map
      (fun allowed => all_rel.filter
        (fun p => (include_root && p.parent == rootPath) || inAllowedTree allowed p))

/-- `get_relpaths_matching_subdirs`: list by extension, then filter by the
subdirectory allow-list. -/
def get_relpaths_matching_subdirs (fs : List FSEntry) (extension : String)
    (include_subdirs : Option (List String)) (include_root : Bool) :
    Except String (List PyPath) :=
  filterPaths (get_relpaths_from_dir fs extension) include_subdirs include_root

/-- `_get_valid_filepaths_by_ext_set(dirpath, exts=exts)`: every entry
(file or directory) under the root whose `suffix` lies in `exts`. -/
def _get_valid_filepaths_by_ext_set (fs : List FSEntry) (exts : List String) :
    List PyPath :=
  (fs.filter (fun e => exts.contains (pySuffix (entryName e)))).map entryPath

/-- The per-position keys built by `_get_shortest_path_by_filename`: the
bare file name when its multiplicity among all names is 1, the full
relative-path string when it is greater (the `np.unique` `counts[inverse]`
mask). -/
def resolverKeys (relpaths_list : List PyPath) : List String :=
  let all_file_names_list := relpaths_list.map PyPath.name
  (all_file_names_list.zip relpaths_list).map
    (fun fp => if 1 < all_file_names_list.count fp.1 then pathStr fp.2 else fp.1)

/-- Insertion into a Python `dict` modelled as an insertion-ordered
association list: an existing key keeps its position and gets the new
value, a new key is appended. -/
def dictInsert (d : List (String × PyPath)) (k : String) (v : PyPath) :
    List (String × PyPath) :=
  if d.any (fun kv => kv.1 == k) then
    d.map (fun kv => if kv.1 == k then (kv.1, v) else kv)
  else d ++ [(k, v)]

/-- A Python `dict` comprehension over a list of key-value pairs. -/
def dictOfPairs (l : List (String × PyPath)) : List (String × PyPath) :=
  l.foldl (fun d kv => dictInsert d kv.1 kv.2) []

/-- `_get_shortest_path_by_filename(relpaths_list)`: zip the per-position
keys with the paths and build the dict. -/
def _get_shortest_path_by_filename (relpaths_list : List PyPath) :
    List (String × PyPath) :=
  dictOfPairs ((resolverKeys relpaths_list).zip relpaths_list)

/-- Modelled from the spec (§4.1 PathLister contract, for the refinement
comparison in C8): the files — directories excluded — whose name ends with
a dot followed by the literal extension, no wildcard interpretation. -/
def pathListerSpec (fs : List FSEntry) (extension : String) : List PyPath :=
  (fs.filter (fun e =>
    e.isFile && ('.' :: extension.toList).isSuffixOf (entryName e).toList)).map entryPath

/-! ### Helper lemmas -/

lemma except_map_ok {α β γ : Type} (f : α → β) (a : α) :
    (Except.ok a : Except γ α).map f = .ok (f a) := rfl

lemma except_map_error {α β γ : Type} (f : α → β) (e : γ) :
    (Except.error e : Except γ α).map f = .error e := rfl

lemma zip_names_self (m : List PyPath) :
    (m.map PyPath.name).zip m = m.map (fun p => (p.name, p)) := by
  induction m with
  | nil => rfl
  | cons a t ih =>
    show (a.name, a) :: ((t.map PyPath.name).zip t) = (a.name, a) :: t.map _
    rw [ih]

lemma resolverKeys_eq_map (l : List PyPath) :
    resolverKeys l = l.map (fun p =>
      if 1 < (l.map PyPath.name).count p.name then pathStr p else p.name) := by
  unfold resolverKeys
  simp only [zip_names_self, List.map_map]
  rfl

lemma filter_self_filter (q : PyPath → Bool) (l : List PyPath) :
    (l.filter q).filter q = l.filter q :=
  List.filter_eq_self.mpr (fun _ ha => List.of_mem_filter ha)

/-! ### Claims -/

/-- C9: `_get_shortest_path_by_filename` applied to the empty list returns
the empty mapping (the embedding is a total function, so no error is
raised on any well-formed input). -/
theorem spec_C9 : _get_shortest_path_by_filename [] = [] := rfl

/-- C2: position `i` of the key list receives the full relative-path
string exactly when the bare file name at `i` occurs more than once in the
whole name sequence, and the bare file name itself when it occurs exactly
once; multiplicity is counted by exact string equality over the entire
list. -/
theorem spec_C2 (relpaths_list : List PyPath) (i : Nat)
    (h : i < relpaths_list.length) :
    (1 < (relpaths_list.map PyPath.name).count relpaths_list[i].name →
      (resolverKeys relpaths_list)[i]? = some (pathStr relpaths_list[i])) ∧
    ((relpaths_list.map PyPath.name).count relpaths_list[i].name = 1 →
      (resolverKeys relpaths_list)[i]? = some relpaths_list[i].name) := by
  rw [resolverKeys_eq_map, List.getElem?_map, List.getElem?_eq_getElem h]
  constructor <;> intro hc
  · simp only [Option.map_some']
    rw [if_pos hc]
  · simp only [Option.map_some']
    rw [if_neg (by omega)]

/-- Witness for C2 at a concrete collision: in
`[a.md, sub/a.md, sub/b.md]` the name at position 1 collides, so the key
is the full path string, and the name at position 2 is unique, so the key
is the bare name. -/
theorem spec_C2_w :
    (1 < (([⟨false, ["a.md"]⟩, ⟨false, ["sub", "a.md"]⟩, ⟨false, ["sub", "b.md"]⟩] :
        List PyPath).map PyPath.name).count
        ([⟨false, ["a.md"]⟩, ⟨false, ["sub", "a.md"]⟩, ⟨false, ["sub", "b.md"]⟩] :
        List PyPath)[1].name →
      (resolverKeys [⟨false, ["a.md"]⟩, ⟨false, ["sub", "a.md"]⟩,
        ⟨false, ["sub", "b.md"]⟩])[1]? =
        some (pathStr ([⟨false, ["a.md"]⟩, ⟨false, ["sub", "a.md"]⟩,
          ⟨false, ["sub", "b.md"]⟩] : List PyPath)[1])) ∧
    ((([⟨false, ["a.md"]⟩, ⟨false, ["sub", "a.md"]⟩, ⟨false, ["sub", "b.md"]⟩] :
        List PyPath).map PyPath.name).count
        ([⟨false, ["a.md"]⟩, ⟨false, ["sub", "a.md"]⟩, ⟨false, ["sub", "b.md"]⟩] :
        List PyPath)[1].name = 1 →
      (resolverKeys [⟨false, ["a.md"]⟩, ⟨false, ["sub", "a.md"]⟩,
        ⟨false, ["sub", "b.md"]⟩])[1]? =
        some ([⟨false, ["a.md"]⟩, ⟨false, ["sub", "a.md"]⟩,
          ⟨false, ["sub", "b.md"]⟩] : List PyPath)[1].name) :=
  spec_C2 [⟨false, ["a.md"]⟩, ⟨false, ["sub", "a.md"]⟩, ⟨false, ["sub", "b.md"]⟩]
    1 (by decide)

/-- C6: whatever the allow-list (`none`, empty or not) and the
`include_root` flag, a successful run of the filtering stage returns a
subsequence of its input: only input elements, with input multiplicities,
in input order. -/
theorem spec_C6 (P : List PyPath) (S : Option (List String)) (r : Bool)
    (out : List PyPath) (h : filterPaths P S r = .ok out) : out.Sublist P := by
  unfold filterPaths at h
  split at h
  · split at h
    · simp only [Except.ok.injEq] at h
      subst h
      exact List.Sublist.refl _
    · simp only [Except.ok.injEq] at h
      subst h
      exact List.filter_sublist _
  · cases hn : normalizeSubdirs (S.getD []) with
    | error e => rw [hn, except_map_error] at h; cases h
    | ok allowed =>
      rw [hn, except_map_ok] at h
      simp only [Except.ok.injEq] at h
      subst h
      exact List.filter_sublist _

/-- Witness for C6 at a concrete input. -/
theorem spec_C6_w :
    List.Sublist ([⟨false, ["a.md"]⟩] : List PyPath) [⟨false, ["a.md"]⟩] :=
  spec_C6 [⟨false, ["a.md"]⟩] none true [⟨false, ["a.md"]⟩] rfl

/-- C7: the filtering stage is idempotent — re-filtering a successful
output with the same allow-list and `include_root` flag returns that
output unchanged. -/
theorem spec_C7 (P : List PyPath) (S : Option (List String)) (r : Bool)
    (out : List PyPath) (h : filterPaths P S r = .ok out) :
    filterPaths out S r = .ok out := by
  unfold filterPaths at h ⊢
  split at h
  case isTrue hc =>
    rw [if_pos hc]
    split at h
    case isTrue hr =>
      rw [if_pos hr]
    case isFalse hr =>
      rw [if_neg hr]
      simp only [Except.ok.injEq] at h
      rw [← h, filter_self_filter]
  case isFalse hc =>
    rw [if_neg hc]
    cases hn : normalizeSubdirs (S.getD []) with
    | error e => rw [hn, except_map_error] at h; cases h
    | ok allowed =>
      rw [hn, except_map_ok] at h
      simp only [Except.ok.injEq] at h
      rw [except_map_ok, ← h, filter_self_filter]

/-- Witness for C7 at a concrete input (`include_root = false`, no
allow-list, one root-level file). -/
theorem spec_C7_w : filterPaths [] none false = .ok [] :=
  spec_C7 [⟨false, ["a.md"]⟩] none false [] rfl

/-! ### Normalisation lemmas for the allow-list -/

lemma except_bind_ok {α β γ : Type} (a : α) (f : α → Except γ β) :
    (Except.ok a : Except γ α).bind f = f a := rfl

lemma except_bind_error {α β γ : Type} (e : γ) (f : α → Except γ β) :
    (Except.error e : Except γ α).bind f = .error e := rfl

lemma relativeToDot_error {p : PyPath} (hp : p.absolute = true) :
    p.relativeToDot = .error "path is absolute" := by
  unfold PyPath.relativeToDot
  rw [if_pos hp]

lemma parent_absolute (p : PyPath) : p.parent.absolute = p.absolute := by
  unfold PyPath.parent
  split <;> rfl

lemma normalizeSubdir_ok_absolute {s : String} {d : PyPath}
    (h : normalizeSubdir s = .ok d) : d.absolute = false := by
  unfold normalizeSubdir at h
  cases hw : (pathFromString s).withSuffixEmpty with
  | error e => rw [hw, except_bind_error] at h; cases h
  | ok q =>
    rw [hw, except_bind_ok] at h
    unfold PyPath.relativeToDot at h
    split at h
    · cases h
    · simp only [Except.ok.injEq] at h
      subst h
      simpa using ‹¬ q.absolute = true›

lemma normalizeSubdirs_ok_absolute {ss : List String} {ds : List PyPath}
    (h : normalizeSubdirs ss = .ok ds) : ∀ d ∈ ds, d.absolute = false := by
  induction ss generalizing ds with
  | nil =>
    unfold normalizeSubdirs at h
    simp only [Except.ok.injEq] at h
    subst h
    intro d hd
    cases hd
  | cons s t ih =>
    unfold normalizeSubdirs at h
    cases h1 : normalizeSubdir s with
    | error e => rw [h1, except_bind_error] at h; cases h
    | ok d0 =>
      rw [h1, except_bind_ok] at h
      cases h2 : normalizeSubdirs t with
      | error e => rw [h2, except_map_error] at h; cases h
      | ok ds0 =>
        rw [h2, except_map_ok] at h
        simp only [Except.ok.injEq] at h
        subst h
        intro d hd
        rcases List.mem_cons.mp hd with h3 | h3
        · subst h3
          exact normalizeSubdir_ok_absolute h1
        · exact ih h2 d h3

lemma normalizeSubdirs_error_of_mem {ss : List String} {s : String} {m0 : String}
    (hs : s ∈ ss) (he : normalizeSubdir s = .error m0) :
    ∃ msg, normalizeSubdirs ss = .error msg := by
  induction ss with
  | nil => cases hs
  | cons a t ih =>
    rcases List.mem_cons.mp hs with h2 | h2
    · refine ⟨m0, ?_⟩
      unfold normalizeSubdirs
      rw [h2] at he
      rw [he, except_bind_error]
    · unfold normalizeSubdirs
      cases h1 : normalizeSubdir a with
      | error e =>
        refine ⟨e, ?_⟩
        rw [except_bind_error]
      | ok d0 =>
        rcases ih h2 with ⟨m, hm⟩
        refine ⟨m, ?_⟩
        rw [except_bind_ok, hm, except_map_error]

lemma filterPaths_error_of_entry {P : List PyPath} {subs : List String} {r : Bool}
    {s m0 : String} (hs : s ∈ subs) (he : normalizeSubdir s = .error m0) :
    ∃ msg, filterPaths P (some subs) r = .error msg := by
  rcases normalizeSubdirs_error_of_mem hs he with ⟨m, hm⟩
  refine ⟨m, ?_⟩
  have hne : subs ≠ [] := List.ne_nil_of_mem hs
  have hcond : ¬ ((some subs : Option (List String)).getD []).isEmpty = true := by
    cases subs
    · exact absurd rfl hne
    · simp [List.isEmpty]
  unfold filterPaths
  rw [if_neg hcond]
  show (normalizeSubdirs subs).map _ = _
  rw [hm, except_map_error]

/-- C1: with a non-empty allow-list whose entries all normalise, a path is
retained by the filtering stage exactly when (`include_root` is true and
its parent is the root) or its parent equals, or is a proper-or-equal
lexical descendant of, a normalised allow-list entry, the descendant test
being the segment-prefix test. -/
theorem spec_C1 (P : List PyPath) (subs : List String) (r : Bool)
    (allowed : List PyPath) (out : List PyPath)
    (hrel : ∀ p ∈ P, p.absolute = false)
    (hnorm : normalizeSubdirs subs = .ok allowed)
    (hne : subs ≠ [])
    (hout : filterPaths P (some subs) r = .ok out) (p : PyPath) :
    p ∈ out ↔ p ∈ P ∧ ((r = true ∧ p.parent = rootPath) ∨
      ∃ d ∈ allowed, d.parts <+: p.parent.parts) := by
  have hcond : ¬ ((some subs : Option (List String)).getD []).isEmpty = true := by
    cases subs
    · exact absurd rfl hne
    · simp [List.isEmpty]
  unfold filterPaths at hout
  rw [if_neg hcond] at hout
  rw [show ((some subs : Option (List String)).getD []) = subs from rfl, hnorm,
    except_map_ok] at hout
  simp only [Except.ok.injEq] at hout
  subst hout
  simp only [List.mem_filter, Bool.or_eq_true, Bool.and_eq_true, beq_iff_eq,
    inAllowedTree, List.any_eq_true, PyPath.isRelativeTo,
    List.isPrefixOf_iff_prefix]
  apply and_congr_right
  intro hp
  have hpabs : p.absolute = false := hrel p hp
  apply or_congr Iff.rfl
  apply exists_congr
  intro d
  apply and_congr_right
  intro hd
  have hdabs : d.absolute = false := normalizeSubdirs_ok_absolute hnorm d hd
  constructor
  · rintro (h1 | ⟨-, h2⟩)
    · rw [h1]
    · exact h2
  · intro h1
    right
    refine ⟨?_, h1⟩
    rw [parent_absolute, hpabs, hdabs]

/-- Witness for C1: Scenario B of the spec restricted to two paths —
`Cat1/x.md` is retained under allow-list `["Cat1"]` with
`include_root = false` because `Cat1` is a segment-prefix of its parent. -/
theorem spec_C1_w :
    (⟨false, ["Cat1", "x.md"]⟩ : PyPath) ∈ ([⟨false, ["Cat1", "x.md"]⟩] : List PyPath) ↔
      (⟨false, ["Cat1", "x.md"]⟩ : PyPath) ∈
          ([⟨false, ["Cat1", "x.md"]⟩, ⟨false, ["Cat2", "z.md"]⟩] : List PyPath) ∧
        ((false = true ∧ (⟨false, ["Cat1", "x.md"]⟩ : PyPath).parent = rootPath) ∨
          ∃ d ∈ ([⟨false, ["Cat1"]⟩] : List PyPath),
            d.parts <+: (⟨false, ["Cat1", "x.md"]⟩ : PyPath).parent.parts) :=
  spec_C1 [⟨false, ["Cat1", "x.md"]⟩, ⟨false, ["Cat2", "z.md"]⟩] ["Cat1"] false
    [⟨false, ["Cat1"]⟩] [⟨false, ["Cat1", "x.md"]⟩] (by decide) rfl (by decide) rfl
    ⟨false, ["Cat1", "x.md"]⟩

/-- C4 counterexample: the code does not treat an allow-list entry equal
to the root via the `include_root` flag — `with_suffix("")` raises
`ValueError` on the empty name of `Path('.')`, so the whole call errors
instead of returning a filtered list. -/
theorem spec_C4_cex :
    filterPaths [⟨false, ["a.md"]⟩] (some ["."]) false = .error "empty name" := rfl

/-- C4 amended: an allow-list entry that parses to the root path makes the
filtering stage raise (`ValueError` from `with_suffix` on an empty name),
so such an entry never causes retention via tree membership and root-level
files can only ever be included via `include_root` on calls whose
allow-list has no root entry. -/
theorem spec_C4_amended (P : List PyPath) (subs : List String) (r : Bool)
    (s : String) (hs : s ∈ subs) (hroot : pathFromString s = rootPath) :
    ∃ msg, filterPaths P (some subs) r = .error msg := by
  apply filterPaths_error_of_entry hs
  have hname : (pathFromString s).name = "" := by
    rw [hroot]
    rfl
  unfold normalizeSubdir PyPath.withSuffixEmpty
  rw [if_pos hname, except_bind_error]

/-- Witness for C4 at the concrete entry `"."`. -/
theorem spec_C4_amended_w :
    ∃ msg, filterPaths [] (some ["."]) false = .error msg :=
  spec_C4_amended [] ["."] false "." (by decide) (by decide)

/-- C5 counterexample: an allow-list entry escaping the root through a
leading `".."` segment does not make the call fail — the filter returns
normally (the entry is silently retained in the allow set and simply never
matches), refuting the fail-fast claim for parent-escaping specs. -/
theorem spec_C5_cex : filterPaths [] (some ["../x"]) true = .ok [] := rfl

/-- C5 amended: the call does fail fast for an absolute allow-list entry
(`relative_to(".")` raises, or `with_suffix` on an empty name), but an
entry escaping the root via `".."` segments is silently ignored rather
than rejected: a leading-`".."` directory never matches the parent of any
path, so it causes no retention (the counterexample shows the non-error). -/
theorem spec_C5_amended (P : List PyPath) (subs : List String) (r : Bool)
    (s : String) (hs : s ∈ subs) (habs : (pathFromString s).absolute = true) :
    ∃ msg, filterPaths P (some subs) r = .error msg := by
  by_cases hname : (pathFromString s).name = ""
  · have he : normalizeSubdir s = .error "empty name" := by
      unfold normalizeSubdir PyPath.withSuffixEmpty
      rw [if_pos hname, except_bind_error]
    exact filterPaths_error_of_entry hs he
  · have he : normalizeSubdir s = .error "path is absolute" := by
      unfold normalizeSubdir PyPath.withSuffixEmpty
      rw [if_neg hname, except_bind_ok]
      exact relativeToDot_error habs
    exact filterPaths_error_of_entry hs he

/-- Witness for C5 at the concrete absolute entry `"/abs"`. -/
theorem spec_C5_amended_w :
    ∃ msg, filterPaths [] (some ["/abs"]) true = .error msg :=
  spec_C5_amended [] ["/abs"] true "/abs" (by decide) (by decide)

/-! ### Glob-pattern lemmas for C8 -/

lemma globMatch_literal {lit : List Char} (h : ∀ c ∈ lit, c ≠ '*' ∧ c ≠ '?') :
    ∀ cs : List Char, globMatch lit cs = true ↔ lit = cs := by
  induction lit with
  | nil =>
    intro cs
    simp only [globMatch, List.isEmpty_iff]
    exact eq_comm
  | cons p ps ih =>
    intro cs
    have hp := h p (List.mem_cons_self p ps)
    cases cs with
    | nil =>
      simp [globMatch, hp.1]
    | cons c cs2 =>
      conv_lhs => rw [globMatch]
      rw [if_neg hp.1]
      simp only [Bool.and_eq_true, Bool.or_eq_true, beq_iff_eq,
        ih (fun c hc => h c (List.mem_cons_of_mem _ hc)) cs2, List.cons.injEq]
      constructor
      · rintro ⟨h1 | h1, h2⟩
        · exact absurd h1 hp.2
        · exact ⟨h1, h2⟩
      · rintro ⟨h1, h2⟩
        exact ⟨Or.inr h1, h2⟩

lemma globMatch_star {lit : List Char} (h : ∀ c ∈ lit, c ≠ '*' ∧ c ≠ '?')
    (cs : List Char) : globMatch ('*' :: lit) cs = true ↔ lit <:+ cs := by
  have hstep : globMatch ('*' :: lit) cs = cs.tails.any (fun t => globMatch lit t) := rfl
  rw [hstep, List.any_eq_true]
  constructor
  · rintro ⟨t, ht, hm⟩
    rw [globMatch_literal h t] at hm
    rw [hm]
    exact (List.mem_tails _ _).mp ht
  · intro h1
    exact ⟨lit, (List.mem_tails _ _).mpr h1, (globMatch_literal h lit).mpr rfl⟩

/-- C8 counterexample: with the extension string `"*"` the glob pattern
becomes `*.*`, so `get_relpaths_from_dir` returns `a.txt` even though its
name does not end with the literal suffix `.*` — the extension is not
matched literally, refuting the no-wildcard claim for arbitrary extension
strings. -/
theorem spec_C8_cex :
    get_relpaths_from_dir [⟨["a.txt"], true⟩] "*" = [⟨false, ["a.txt"]⟩] ∧
    pathListerSpec [⟨["a.txt"], true⟩] "*" = [] := by
  constructor <;> rfl

/-- C8 amended: for every extension string free of the glob metacharacters
`*`, `?`, `[` and of `/`, the lister returns exactly the regular files
(directories excluded) whose name ends with a dot followed by the literal
extension — i.e. it coincides with the spec-described PathLister. -/
theorem spec_C8_amended (fs : List FSEntry) (extension : String)
    (h : ∀ c ∈ extension.toList, c ≠ '*' ∧ c ≠ '?' ∧ c ≠ '[' ∧ c ≠ '/') :
    get_relpaths_from_dir fs extension = pathListerSpec fs extension := by
  unfold get_relpaths_from_dir pathListerSpec
  congr 1
  apply List.filter_congr
  intro e _
  have hlit : ∀ c ∈ ('.' :: extension.toList), c ≠ '*' ∧ c ≠ '?' := by
    intro c hc
    rcases List.mem_cons.mp hc with h1 | h1
    · subst h1
      exact ⟨by decide, by decide⟩
    · exact ⟨(h c h1).1, (h c h1).2.1⟩
  have hpat : ("*." ++ extension).toList = '*' :: '.' :: extension.toList := by
    show ("*." ++ extension).data = _
    rw [String.data_append]
    rfl
  rw [hpat, Bool.and_comm]
  congr 1
  rw [Bool.eq_iff_iff, globMatch_star hlit, List.isSuffixOf_iff_suffix]

/-- Witness for C8 amended at the literal extension `"md"`: the glob
listing and the literal-suffix listing agree on a small tree containing a
matching file, a non-matching file and a matching-named directory. -/
theorem spec_C8_amended_w :
    get_relpaths_from_dir
        [⟨["sub", "b.md"], true⟩, ⟨["a.txt"], true⟩, ⟨["dir.md"], false⟩] "md" =
      pathListerSpec
        [⟨["sub", "b.md"], true⟩, ⟨["a.txt"], true⟩, ⟨["dir.md"], false⟩] "md" :=
  spec_C8_amended [⟨["sub", "b.md"], true⟩, ⟨["a.txt"], true⟩, ⟨["dir.md"], false⟩]
    "md" (by decide)

/-! ### Suffix lemmas for C10 -/

lemma lastDot_spec {cs : List Char} {i : Nat} (h : lastDot cs = some i) :
    i < cs.length ∧ cs.get? i = some '.' := by
  unfold lastDot at h
  have hmem := List.mem_of_mem_getLast? h
  have h2 := List.mem_filter.mp hmem
  refine ⟨List.mem_range.mp h2.1, ?_⟩
  have h3 := h2.2
  rwa [beq_iff_eq] at h3

lemma pySuffix_eq (n : String) :
    pySuffix n = (match lastDot n.toList with
      | some i =>
        if 0 < i ∧ i + 1 < n.toList.length then String.mk (n.toList.drop i) else ""
      | none => "") := rfl

lemma pySuffix_shape (n : String) :
    pySuffix n = "" ∨ (pySuffix n).toList.head? = some '.' := by
  rw [pySuffix_eq]
  cases hld : lastDot n.toList with
  | none => exact Or.inl rfl
  | some i =>
    by_cases hc : 0 < i ∧ i + 1 < n.toList.length
    · right
      show (if 0 < i ∧ i + 1 < n.toList.length then
        String.mk (n.toList.drop i) else "").toList.head? = some '.'
      rw [if_pos hc]
      show (n.toList.drop i).head? = some '.'
      rw [List.head?_drop, ← List.get?_eq_getElem?]
      exact (lastDot_spec hld).2
    · exact Or.inl (if_neg hc)

lemma entryPath_parts (e : FSEntry) : (entryPath e).parts = e.parts := rfl

lemma entryName_eq_of_entryPath {e e2 : FSEntry} (h : entryPath e = entryPath e2) :
    entryName e = entryName e2 := by
  unfold entryName
  have : e.parts = e2.parts := by
    have := congrArg PyPath.parts h
    simpa [entryPath] using this
  rw [this]

/-- C10: `_get_valid_filepaths_by_ext_set` returns the path of every
entry — directories included, there is no file test — whose `suffix`
(leading dot included) is a member of the extension set; a nonempty
extension string not starting with a dot is never a suffix, and an entry
with empty suffix is returned exactly when the empty string is in the
set. -/
theorem spec_C10 (fs : List FSEntry) (exts : List String) :
    (∀ e ∈ fs, entryPath e ∈ _get_valid_filepaths_by_ext_set fs exts ↔
      pySuffix (entryName e) ∈ exts) ∧
    (∀ ext ∈ exts, ext.toList.head? ≠ some '.' → ext ≠ "" →
      ∀ e ∈ fs, pySuffix (entryName e) ≠ ext) ∧
    (∀ e ∈ fs, pySuffix (entryName e) = "" →
      (entryPath e ∈ _get_valid_filepaths_by_ext_set fs exts ↔ "" ∈ exts)) := by
  have hmm : ∀ e ∈ fs, (entryPath e ∈ _get_valid_filepaths_by_ext_set fs exts ↔
      pySuffix (entryName e) ∈ exts) := by
    intro e he
    unfold _get_valid_filepaths_by_ext_set
    rw [List.mem_map]
    constructor
    · rintro ⟨e2, h2, h3⟩
      have h4 := List.mem_filter.mp h2
      have h5 : pySuffix (entryName e2) ∈ exts := List.elem_iff.mp h4.2
      rwa [entryName_eq_of_entryPath h3] at h5
    · intro hsuf
      refine ⟨e, List.mem_filter.mpr ⟨he, ?_⟩, rfl⟩
      exact List.elem_iff.mpr hsuf
  refine ⟨hmm, ?_, ?_⟩
  · intro ext _ hdot hne e _ hsuf
    rcases pySuffix_shape (entryName e) with h1 | h1
    · rw [hsuf] at h1
      exact hne h1
    · rw [hsuf] at h1
      exact hdot h1
  · intro e he hsuf
    rw [hmm e he, hsuf]

/-- Witness for C10: the directory entry `dir.md` (not a regular file) is
returned because its suffix `.md` is in the set. -/
theorem spec_C10_w :
    entryPath ⟨["dir.md"], false⟩ ∈
      _get_valid_filepaths_by_ext_set [⟨["dir.md"], false⟩] [".md"] :=
  ((spec_C10 [⟨["dir.md"], false⟩] [".md"]).1 ⟨["dir.md"], false⟩
    (by decide)).mpr (by decide)

/-! ### String-join and counting lemmas for C3 -/

/-- A well-formed relative path as produced by the lister: relative,
non-empty, and no component contains a separator. -/
def ValidRelPath (p : PyPath) : Prop :=
  p.absolute = false ∧ p.parts ≠ [] ∧ ∀ s ∈ p.parts, ('/' : Char) ∉ s.toList

instance (p : PyPath) : Decidable (ValidRelPath p) := by
  unfold ValidRelPath
  infer_instance

lemma string_toList_append (a b : String) : (a ++ b).toList = a.toList ++ b.toList :=
  String.data_append a b

lemma string_toList_inj {a b : String} (h : a.toList = b.toList) : a = b :=
  String.ext h

lemma append_slash_inj : ∀ (a b x y : List Char), ('/' : Char) ∉ a → ('/' : Char) ∉ b →
    a ++ '/' :: x = b ++ '/' :: y → a = b ∧ x = y := by
  intro a
  induction a with
  | nil =>
    intro b x y _ hb h
    cases b with
    | nil => simpa using h
    | cons c b2 =>
      rw [List.nil_append, List.cons_append] at h
      injection h with h1 h2
      exfalso
      apply hb
      rw [← h1]
      exact List.mem_cons_self _ _
  | cons c a2 ih =>
    intro b x y ha hb h
    cases b with
    | nil =>
      rw [List.nil_append, List.cons_append] at h
      injection h with h1 h2
      exfalso
      apply ha
      rw [h1]
      exact List.mem_cons_self _ _
    | cons d b2 =>
      rw [List.cons_append, List.cons_append] at h
      injection h with h1 h2
      have ha2 : ('/' : Char) ∉ a2 := fun hm => ha (List.mem_cons_of_mem _ hm)
      have hb2 : ('/' : Char) ∉ b2 := fun hm => hb (List.mem_cons_of_mem _ hm)
      rcases ih b2 x y ha2 hb2 h2 with ⟨h3, h4⟩
      exact ⟨by rw [h1, h3], h4⟩

lemma joinSlash_cons₂ (s t : String) (rest : List String) :
    joinSlash (s :: t :: rest) = s ++ "/" ++ joinSlash (t :: rest) := rfl

lemma joinSlash_toList_cons₂ (s t : String) (rest : List String) :
    (joinSlash (s :: t :: rest)).toList =
      s.toList ++ '/' :: (joinSlash (t :: rest)).toList := by
  rw [joinSlash_cons₂, string_toList_append, string_toList_append, List.append_assoc]
  rfl

lemma slash_mem_joinSlash_cons₂ (s t : String) (rest : List String) :
    ('/' : Char) ∈ (joinSlash (s :: t :: rest)).toList := by
  rw [joinSlash_toList_cons₂]
  exact List.mem_append.mpr (Or.inr (List.mem_cons_self _ _))

lemma joinSlash_inj : ∀ (l1 l2 : List String), l1 ≠ [] → l2 ≠ [] →
    (∀ s ∈ l1, ('/' : Char) ∉ s.toList) → (∀ s ∈ l2, ('/' : Char) ∉ s.toList) →
    joinSlash l1 = joinSlash l2 → l1 = l2 := by
  intro l1
  induction l1 with
  | nil => intro l2 h1; exact absurd rfl h1
  | cons s ss ih =>
    intro l2 _ hne2 hsf1 hsf2 heq
    cases l2 with
    | nil => exact absurd rfl hne2
    | cons t ts =>
      cases ss with
      | nil =>
        cases ts with
        | nil => rw [show (joinSlash [s] = s) from rfl, show (joinSlash [t] = t) from rfl] at heq; rw [heq]
        | cons t2 ts2 =>
          exfalso
          apply hsf1 s (List.mem_cons_self _ _)
          rw [show (joinSlash [s] = s) from rfl] at heq
          rw [show s.toList = (joinSlash (t :: t2 :: ts2)).toList from by rw [← heq]]
          exact slash_mem_joinSlash_cons₂ t t2 ts2
      | cons s2 ss2 =>
        cases ts with
        | nil =>
          exfalso
          apply hsf2 t (List.mem_cons_self _ _)
          rw [show (joinSlash [t] = t) from rfl] at heq
          rw [show t.toList = (joinSlash (s :: s2 :: ss2)).toList from by rw [heq]]
          exact slash_mem_joinSlash_cons₂ s s2 ss2
        | cons t2 ts2 =>
          have heqL : s.toList ++ '/' :: (joinSlash (s2 :: ss2)).toList =
              t.toList ++ '/' :: (joinSlash (t2 :: ts2)).toList := by
            rw [← joinSlash_toList_cons₂, ← joinSlash_toList_cons₂, heq]
          rcases append_slash_inj s.toList t.toList _ _
            (hsf1 s (List.mem_cons_self _ _)) (hsf2 t (List.mem_cons_self _ _)) heqL
            with ⟨hA, hB⟩
          have hst : s = t := string_toList_inj hA
          have htail : s2 :: ss2 = t2 :: ts2 := by
            apply ih (t2 :: ts2) (List.cons_ne_nil _ _) (List.cons_ne_nil _ _)
              (fun u hu => hsf1 u (List.mem_cons_of_mem _ hu))
              (fun u hu => hsf2 u (List.mem_cons_of_mem _ hu))
            exact string_toList_inj hB
          rw [hst, htail]

lemma pathStr_valid {p : PyPath} (h : ValidRelPath p) : pathStr p = joinSlash p.parts := by
  unfold pathStr
  rw [if_neg (by simpa [List.isEmpty_iff] using h.2.1), h.1]
  apply string_toList_inj
  rw [string_toList_append]
  rfl

lemma pathStr_inj {p q : PyPath} (hp : ValidRelPath p) (hq : ValidRelPath q)
    (h : pathStr p = pathStr q) : p = q := by
  rw [pathStr_valid hp, pathStr_valid hq] at h
  have hparts : p.parts = q.parts :=
    joinSlash_inj p.parts q.parts hp.2.1 hq.2.1 hp.2.2 hq.2.2 h
  cases p
  cases q
  simp only [PyPath.mk.injEq]
  exact ⟨hp.1.trans hq.1.symm, hparts⟩

lemma name_mem_parts {p : PyPath} (h : p.parts ≠ []) : p.name ∈ p.parts := by
  unfold PyPath.name
  rw [List.getLast?_eq_getLast _ h]
  exact List.getLast_mem h

lemma name_eq_of_pathStr_eq_name {x y : PyPath} (hvx : ValidRelPath x)
    (hvy : ValidRelPath y) (h : pathStr x = y.name) : x.name = y.name := by
  rw [pathStr_valid hvx] at h
  rcases hx2 : x.parts with _ | ⟨a, rest⟩
  · exact absurd hx2 hvx.2.1
  · cases rest with
    | nil =>
      rw [hx2, show (joinSlash [a] = a) from rfl] at h
      unfold PyPath.name
      rw [hx2]
      exact h
    | cons b rest2 =>
      exfalso
      rw [hx2] at h
      apply hvy.2.2 y.name (name_mem_parts hvy.2.1)
      rw [← h]
      exact slash_mem_joinSlash_cons₂ a b rest2

lemma two_le_count_map {α β : Type} [DecidableEq β] {l : List α} {x y : α} (f : α → β)
    (hx : x ∈ l) (hy : y ∈ l) (hne : x ≠ y) (hf : f x = f y) :
    2 ≤ (l.map f).count (f x) := by
  rcases List.append_of_mem hx with ⟨l1, l2, rfl⟩
  have hy2 : y ∈ l1 ∨ y ∈ l2 := by
    rcases List.mem_append.mp hy with h1 | h1
    · exact Or.inl h1
    · rcases List.mem_cons.mp h1 with h2 | h2
      · exact absurd h2.symm hne
      · exact Or.inr h2
  have hc1 : 1 ≤ (l1.map f).count (f x) + (l2.map f).count (f x) := by
    rcases hy2 with h1 | h1
    · have : f x ∈ l1.map f := by
        rw [hf]
        exact List.mem_map_of_mem f h1
      have := List.count_pos_iff.mpr this
      omega
    · have : f x ∈ l2.map f := by
        rw [hf]
        exact List.mem_map_of_mem f h1
      have := List.count_pos_iff.mpr this
      omega
  rw [List.map_append, List.map_cons, List.count_append, List.count_cons_self]
  omega

/-! ### Key uniqueness and dict lemmas for C3 -/

lemma resolverKeys_length (paths : List PyPath) :
    (resolverKeys paths).length = paths.length := by
  rw [resolverKeys_eq_map, List.length_map]

lemma resolverKeys_nodup {paths : List PyPath} (hd : paths.Nodup)
    (hv : ∀ p ∈ paths, ValidRelPath p) : (resolverKeys paths).Nodup := by
  rw [resolverKeys_eq_map]
  apply List.Nodup.map_on ?_ hd
  intro x hx y hy hkey
  by_contra hne
  by_cases hcx : 1 < (paths.map PyPath.name).count x.name <;>
    by_cases hcy : 1 < (paths.map PyPath.name).count y.name
  · rw [if_pos hcx, if_pos hcy] at hkey
    exact hne (pathStr_inj (hv x hx) (hv y hy) hkey)
  · rw [if_pos hcx, if_neg hcy] at hkey
    have hname : x.name = y.name :=
      name_eq_of_pathStr_eq_name (hv x hx) (hv y hy) hkey
    have h2 : 2 ≤ (paths.map PyPath.name).count (PyPath.name x) :=
      two_le_count_map PyPath.name hx hy hne hname
    rw [show (PyPath.name x) = x.name from rfl, hname] at h2
    omega
  · rw [if_neg hcx, if_pos hcy] at hkey
    have hname : y.name = x.name :=
      name_eq_of_pathStr_eq_name (hv y hy) (hv x hx) hkey.symm
    have h2 : 2 ≤ (paths.map PyPath.name).count (PyPath.name y) :=
      two_le_count_map PyPath.name hy hx (fun hh => hne hh.symm) hname
    rw [show (PyPath.name y) = y.name from rfl, hname] at h2
    omega
  · rw [if_neg hcx, if_neg hcy] at hkey
    have h2 : 2 ≤ (paths.map PyPath.name).count (PyPath.name x) :=
      two_le_count_map PyPath.name hx hy hne hkey
    omega

lemma dictInsert_new {d : List (String × PyPath)} {k : String} (v : PyPath)
    (h : ∀ kv ∈ d, kv.1 ≠ k) : dictInsert d k v = d ++ [(k, v)] := by
  unfold dictInsert
  rw [if_neg ?_]
  intro hc
  rcases List.any_eq_true.mp hc with ⟨kv, hkv, hkv2⟩
  exact h kv hkv (by simpa using hkv2)

lemma foldl_dictInsert_nodup : ∀ (l d : List (String × PyPath)),
    ((d ++ l).map Prod.fst).Nodup →
    l.foldl (fun acc kv => dictInsert acc kv.1 kv.2) d = d ++ l := by
  intro l
  induction l with
  | nil =>
    intro d _
    simp
  | cons kv t ih =>
    intro d h
    rw [List.foldl_cons]
    have hins : dictInsert d kv.1 kv.2 = d ++ [kv] := by
      apply dictInsert_new
      intro kv2 hkv2
      have hmap : (d.map Prod.fst ++ kv.1 :: t.map Prod.fst).Nodup := by
        rw [← List.map_cons, ← List.map_append]
        exact h
      have hdisj := (List.nodup_append.mp hmap).2.2
      intro he
      exact hdisj (List.mem_map_of_mem Prod.fst hkv2) (he ▸ List.mem_cons_self _ _)
    rw [hins]
    have h2 : (((d ++ [kv]) ++ t).map Prod.fst).Nodup := by
      rw [List.append_assoc]
      exact h
    rw [ih (d ++ [kv]) h2, List.append_assoc]
    rfl

lemma dict_eq_zip {paths : List PyPath} (hnd : (resolverKeys paths).Nodup) :
    _get_shortest_path_by_filename paths = (resolverKeys paths).zip paths := by
  unfold _get_shortest_path_by_filename dictOfPairs
  apply foldl_dictInsert_nodup
  rw [List.nil_append,
    List.map_fst_zip _ _ (le_of_eq (resolverKeys_length paths))]
  exact hnd

lemma lookup_zip : ∀ (keys : List String) (vals : List PyPath) (i : Nat)
    (k : String) (v : PyPath), keys.Nodup → keys.get? i = some k →
    vals.get? i = some v → List.lookup k (keys.zip vals) = some v := by
  intro keys
  induction keys with
  | nil =>
    intro vals i k v _ hk
    simp at hk
  | cons a t ih =>
    intro vals i k v hnd hk hv
    cases vals with
    | nil => simp at hv
    | cons b vs =>
      cases i with
      | zero =>
        injection hk with hk
        injection hv with hv
        subst hk
        subst hv
        simp [List.zip_cons_cons, List.lookup]
      | succ i2 =>
        have hk2 : t.get? i2 = some k := hk
        have hv2 : vs.get? i2 = some v := hv
        have hne : (k == a) = false := by
          apply beq_eq_false_iff_ne.mpr
          intro he
          subst he
          exact (List.nodup_cons.mp hnd).1 (List.get?_mem hk2)
        show List.lookup k ((a, b) :: t.zip vs) = some v
        simp only [List.lookup, hne]
        exact ih vs i2 k v (List.Nodup.of_cons hnd) hk2 hv2

/-- C3 counterexample: when the same path occurs twice in the input list,
both positions receive the same full-path key and the Python dict
collapses them, so the mapping's size is strictly smaller than the input
length — the bijection claim fails for inputs with repeated paths. -/
theorem spec_C3_cex :
    (_get_shortest_path_by_filename [⟨false, ["a.md"]⟩, ⟨false, ["a.md"]⟩]).length ≠
      ([⟨false, ["a.md"]⟩, ⟨false, ["a.md"]⟩] : List PyPath).length := by decide

/-- C3 amended: for every input list of pairwise-distinct well-formed
relative paths (as the lister produces), the resolver's mapping is a
bijection — its size equals the input length, its values are exactly the
input paths in order, its keys are pairwise distinct, and looking up the
key built at any position returns that position's path. -/
theorem spec_C3_amended (paths : List PyPath) (hd : paths.Nodup)
    (hv : ∀ p ∈ paths, ValidRelPath p) :
    (_get_shortest_path_by_filename paths).length = paths.length ∧
    (_get_shortest_path_by_filename paths).map Prod.snd = paths ∧
    ((_get_shortest_path_by_filename paths).map Prod.fst).Nodup ∧
    (∀ i k p, (resolverKeys paths).get? i = some k → paths.get? i = some p →
      List.lookup k (_get_shortest_path_by_filename paths) = some p) := by
  have hnd := resolverKeys_nodup hd hv
  have hlen := resolverKeys_length paths
  have hzip := dict_eq_zip hnd
  refine ⟨?_, ?_, ?_, ?_⟩
  · rw [hzip, List.length_zip, hlen, Nat.min_self]
  · rw [hzip]
    exact List.map_snd_zip _ _ (le_of_eq hlen.symm)
  · rw [hzip, List.map_fst_zip _ _ (le_of_eq hlen)]
    exact hnd
  · intro i k p hk hp
    rw [hzip]
    exact lookup_zip _ _ i k p hnd hk hp

/-- Witness for C3 amended on the two distinct paths `a.md` and
`sub/a.md` (whose bare names collide). -/
theorem spec_C3_amended_w :
    (_get_shortest_path_by_filename
        [⟨false, ["a.md"]⟩, ⟨false, ["sub", "a.md"]⟩]).length =
      ([⟨false, ["a.md"]⟩, ⟨false, ["sub", "a.md"]⟩] : List PyPath).length ∧
    (_get_shortest_path_by_filename
        [⟨false, ["a.md"]⟩, ⟨false, ["sub", "a.md"]⟩]).map Prod.snd =
      [⟨false, ["a.md"]⟩, ⟨false, ["sub", "a.md"]⟩] ∧
    ((_get_shortest_path_by_filename
        [⟨false, ["a.md"]⟩, ⟨false, ["sub", "a.md"]⟩]).map Prod.fst).Nodup ∧
    (∀ i k p,
      (resolverKeys [⟨false, ["a.md"]⟩, ⟨false, ["sub", "a.md"]⟩]).get? i = some k →
      ([⟨false, ["a.md"]⟩, ⟨false, ["sub", "a.md"]⟩] : List PyPath).get? i = some p →
      List.lookup k (_get_shortest_path_by_filename
        [⟨false, ["a.md"]⟩, ⟨false, ["sub", "a.md"]⟩]) = some p) :=
  spec_C3_amended [⟨false, ["a.md"]⟩, ⟨false, ["sub", "a.md"]⟩] (by decide) (by decide)
